import Mathlib

/-!
# Verification of the cura-wasm run-orchestration worker

A shallow embedding of `src/worker.ts` (the Cura WASM worker singleton):
the engine lifecycle guard, the definition stager
(`addDefinitions` / `removeDefinitions`), the progress blender (converter
bias, slicer bias, rounding and deduplication of slicer progress), and the
run orchestrator (`run`).

Numeric progress values are modelled as rationals (`ℚ`); the JavaScript
`Math.round` is `fun x => ⌊x + 1/2⌋`, which agrees with JS semantics on
all inputs.  The engine's in-memory (Emscripten) filesystem is modelled as
a flat store of directories and `path ↦ contents` file entries.  The
foreign collaborators (the format converter, the engine binary, the
argument synthesizer) are oracles supplied as parameters, matching the
spec's external-collaborator boundary.
-/

namespace CuraWasm

/-- One entry of the `override` type from `src/types.ts`. -/
structure Override where
  scope : String
  key : String
  value : String
deriving Repr, DecidableEq

/-- Errors surfaced by the worker: `notInitialized` models the
`new Error(...)` thrown by the lifecycle guards, `fsError` models an
Emscripten `FS.ErrnoError`, `engineFailure` a fault escaping
`engine.callMain`. -/
inductive WError where
  | notInitialized (msg : String)
  | fsError (code : String)
  | engineFailure
deriving Repr, DecidableEq

/-- The engine's in-memory filesystem: a flat set of directories and a
flat association of file paths to contents. -/
structure FS where
  dirs : List String
  files : List (String × String)
deriving Repr, DecidableEq

/-- Does a directory exist? -/
def FS.hasDir (fs : FS) (d : String) : Bool :=
  fs.dirs.any (fun x => x == d)

/-- Does a file exist? -/
def FS.hasFile (fs : FS) (p : String) : Bool :=
  fs.files.any (fun e => e.1 == p)

/-- Is the path `p` inside directory `dir` (strictly below it)? -/
def pathInDir (dir p : String) : Bool :=
  (dir ++ "/").data.isPrefixOf p.data

/-- Model of `FS.mkdir`: fails if the directory already exists. -/
def FS.mkdir (fs : FS) (d : String) : Except String FS :=
  if fs.hasDir d then .error "EEXIST"
  else .ok { fs with dirs := d :: fs.dirs }

/-- Model of `FS.writeFile`: creates or overwrites a file. -/
def FS.writeFile (fs : FS) (p data : String) : FS :=
  { fs with files := (p, data) :: fs.files.filter (fun e => e.1 != p) }

/-- Model of `FS.readFile`: fails if the file does not exist. -/
def FS.readFile (fs : FS) (p : String) : Except String String :=
  match fs.files.find? (fun e => e.1 == p) with
  | some e => .ok e.2
  | none => .error "ENOENT"

/-- Model of `FS.unlink`: fails if the file does not exist. -/
def FS.unlink (fs : FS) (p : String) : Except String FS :=
  if fs.hasFile p then
    .ok { fs with files := fs.files.filter (fun e => e.1 != p) }
  else .error "ENOENT"

/-- Model of `FS.rmdir`: fails if the directory does not exist or still holds
files. -/
def FS.rmdir (fs : FS) (d : String) : Except String FS :=
  if fs.hasDir d = false then .error "ENOENT"
  else if fs.files.any (fun e => pathInDir d e.1) then .error "ENOTEMPTY"
  else .ok { fs with dirs := fs.dirs.filter (fun x => x != d) }

/-- The worker's module-level mutable state (`engine`, `extruderCount`,
the observers, and the two `globalThis` callback hooks the engine calls
back into). -/
structure WorkerState where
  engine : Bool
  fs : FS
  extruderCount : Option Nat
  hasProgressObserver : Bool
  progressHook : Bool
  metadataHook : Bool
deriving Repr, DecidableEq

/-- Modelled from the spec: the fixed table of primary printer
definitions imported by the worker from `./definitions/index` (a module
not present under `src/`; the spec states the stager writes "one file per
fixed primary definition name").  The concrete names and contents stand
in for the real table; the verified properties do not depend on them. -/
def definitions : List (String × String) :=
  [("fdmprinter", "fdmprinter definition body"),
   ("fdmextruder", "fdmextruder definition body"),
   ("ultimaker2", "ultimaker2 definition body")]

/-- A `CombinedDefinition`: the printer definition object and one object
per extruder (contents modelled as strings, standing for the
`JSON.stringify` output). -/
structure CombinedDefinition where
  printer : String
  extruders : List String
deriving Repr, DecidableEq

/-- Path of a primary definition file: `/definitions/${definition}.def.json`. -/
def primaryPath (name : String) : String :=
  "/definitions/" ++ name ++ ".def.json"

/-- Path of an extruder definition file: `/definitions/extruder-${i}.def.json`. -/
def extruderPath (i : Nat) : String :=
  "/definitions/extruder-" ++ Nat.repr i ++ ".def.json"

/-- Model of `worker.addDefinitions` (lines 62–94 of `worker.ts`): guard on the
engine handle, `mkdir /definitions`, write every primary definition, the
printer definition, and one file per extruder; record the extruder
count. -/
def addDefinitions (st : WorkerState) (definition : CombinedDefinition) :
    Except WError WorkerState :=
  if st.engine = false then
    .error (.notInitialized "Attempting to add definitions before initialization!")
  else do
    let fs ← (st.fs.mkdir "/definitions").mapError WError.fsError
    let fs := definitions.foldl (fun fs d => fs.writeFile (primaryPath d.1) d.2) fs
    let fs := fs.writeFile "/definitions/printer.def.json" definition.printer
    let fs := definition.extruders.enum.foldl
      (fun fs ie => fs.writeFile (extruderPath ie.1) ie.2) fs
    .ok { st with fs := fs, extruderCount := some definition.extruders.length }

/-- Model of `worker.removeDefinitions` (lines 253–282 of `worker.ts`): guard on
the engine handle and the recorded extruder count, unlink every primary
definition, the printer definition, and one file per recorded extruder;
remove the directory.  The recorded extruder count and the engine handle
are left untouched. -/
def removeDefinitions (st : WorkerState) : Except WError WorkerState :=
  match st.engine, st.extruderCount with
  | false, _ =>
    .error (.notInitialized "Attempting to remove definitions before initialization!")
  | true, none =>
    .error (.notInitialized "Attempting to remove definitions before initialization!")
  | true, some extruderCount => do
    let fs ← definitions.foldlM
      (fun fs d => (FS.unlink fs (primaryPath d.1)).mapError WError.fsError) st.fs
    let fs ← (fs.unlink "/definitions/printer.def.json").mapError WError.fsError
    let fs ← (List.range extruderCount).foldlM
      (fun fs i => (FS.unlink fs (extruderPath i)).mapError WError.fsError) fs
    let fs ← (fs.rmdir "/definitions").mapError WError.fsError
    .ok { st with fs := fs }

/-- JavaScript `Math.round`: round half toward positive infinity. -/
def jsRound (q : ℚ) : ℚ := (⌊q + 1/2⌋ : ℤ)

/-- Line 171 of `worker.ts`:
`slicerProgress = Math.round(100 * slicerProgress) / 100`. -/
def roundSlicerProgress (s : ℚ) : ℚ := jsRound (100 * s) / 100

/-- Model of `converterBias` (line 135 of `worker.ts`):
`extension == 'stl' ? 0 : 0.3`. -/
def converterBias (extension : String) : ℚ :=
  if extension = "stl" then 0 else 3/10

/-- Model of `slicerBias` (line 142 of `worker.ts`): `1 - converterBias`. -/
def slicerBias (extension : String) : ℚ := 1 - converterBias extension

/-- One invocation of the `cura-wasm-progress-callback` hook
(lines 168–184 of `worker.ts`): round the raw slicer fraction to two
decimals, compare against `previousSlicerProgress`, emit
`slicerProgress * slicerBias + converterBias` to the progress observer
when it differs (and the observer exists), and update
`previousSlicerProgress`.  Returns the new `previousSlicerProgress` and
the emission, if any. -/
def progressCallback (cBias sBias : ℚ) (hasObserver : Bool) (prev s : ℚ) :
    ℚ × Option ℚ :=
  let slicerProgress := roundSlicerProgress s
  if slicerProgress ≠ prev then
    (slicerProgress,
      if hasObserver then some (slicerProgress * sBias + cBias) else none)
  else
    (prev, none)

/-- The sequence of slicer-phase callback invocations performed by the
engine during `callMain`, starting from dedup state `prev`: returns the
list of delivered progress emissions and the final dedup state. -/
def runSlicerCallbacks (cBias sBias : ℚ) (hasObserver : Bool) :
    ℚ → List ℚ → List ℚ × ℚ
  | prev, [] => ([], prev)
  | prev, s :: rest =>
    match progressCallback cBias sBias hasObserver prev s with
    | (prev', none) => runSlicerCallbacks cBias sBias hasObserver prev' rest
    | (prev', some v) =>
      let r := runSlicerCallbacks cBias sBias hasObserver prev' rest
      (v :: r.1, r.2)

/-- The conversion-phase progress emissions (lines 145–153 of
`worker.ts`): every raw converter fraction is forwarded as
`converterProgress * converterBias` when a progress observer exists. -/
def converterEmits (cBias : ℚ) (hasObserver : Bool) (raws : List ℚ) : List ℚ :=
  if hasObserver then raws.map (fun p => p * cBias) else []

/-- Core of `jsSplitSpace`, on character lists. -/
def jsSplitSpaceCore : List Char → List (List Char)
  | [] => [[]]
  | c :: rest =>
    match jsSplitSpaceCore rest with
    | [] => []
    | w :: ws => if c = ' ' then [] :: w :: ws else (c :: w) :: ws

/-- JavaScript `command.split(' ')` (line 224 of `worker.ts`): split on
every single space; consecutive separators yield empty tokens, and the
empty string splits to `[""]`. -/
def jsSplitSpace (s : String) : List String :=
  (jsSplitSpaceCore s.data).map (fun cs => String.mk cs)

/-- Behaviour of the external file converter for one call: the raw
progress fractions it reports and its result (canonical STL bytes, or a
typed `Error`). -/
structure ConvOracle where
  progress : List ℚ
  result : Except String String
deriving Repr

/-- Behaviour of the engine binary for one `callMain` invocation: the raw
slicer progress fractions it reports through the progress hook, whether
the call faults, and the `Model.gcode` contents it writes on success. -/
structure EngineOracle where
  slicerProgress : List ℚ
  crashes : Bool
  gcode : String
deriving Repr, DecidableEq

/-- The value `run` resolves to: a typed conversion error returned
through the normal channel, or the sliced gcode buffer. -/
inductive RunResult where
  | conversionError (e : String)
  | gcode (bytes : String)
deriving Repr, DecidableEq

/-- Observable outcome of one `run` invocation: the settled result (or
the fault that escaped), every value delivered to the progress
subscriber, the argument vector passed to `engine.callMain` (`none` when
the engine was never invoked), and the worker state afterwards. -/
structure RunOutput where
  result : Except WError RunResult
  progressEmits : List ℚ
  argsPassed : Option (List String)
  state : WorkerState
deriving Repr

/-- Model of `worker.run` (lines 121–248 of `worker.ts`): guard on the engine
handle; compute the two biases from the extension; invoke the converter,
forwarding its progress; on a typed converter error, return it as the
result; otherwise write `Model.stl`, initialize the dedup state to `0`,
register the two `globalThis` callback hooks, build the argument vector
(`generate(overrides, verbose)` when `command` is null, otherwise
`command.split(' ')`, modelled by `jsSplitSpace`), invoke the engine (during which the slicer
callbacks fire), then delete the progress hook, read `Model.gcode`,
unlink both transient files and return the gcode.  A fault from
`callMain` propagates with the hooks still registered. -/
def run (st : WorkerState) (command : Option String) (overrides : List Override)
    (verbose : Bool) (extension : String) (conv : ConvOracle)
    (eng : EngineOracle) (generate : List Override → Bool → List String) :
    RunOutput :=
  if st.engine = false then
    { result := .error (.notInitialized "Attempting to run Cura Engine before initialization!"),
      progressEmits := [], argsPassed := none, state := st }
  else
    let cBias := converterBias extension
    let sBias := slicerBias extension
    let convEmits := converterEmits cBias st.hasProgressObserver conv.progress
    match conv.result with
    | .error e =>
      { result := .ok (.conversionError e), progressEmits := convEmits,
        argsPassed := none, state := st }
    | .ok stl =>
      let st1 : WorkerState :=
        { st with fs := st.fs.writeFile "Model.stl" stl,
                  progressHook := true, metadataHook := true }
      let args := match command with
        | none => generate overrides verbose
        | some c => jsSplitSpace c
      let slice := runSlicerCallbacks cBias sBias st1.hasProgressObserver 0
        eng.slicerProgress
      if eng.crashes then
        { result := .error .engineFailure, progressEmits := convEmits ++ slice.1,
          argsPassed := some args, state := st1 }
      else
        let st2 : WorkerState :=
          { st1 with fs := st1.fs.writeFile "Model.gcode" eng.gcode,
                     progressHook := false }
        match st2.fs.readFile "Model.gcode" with
        | .error e =>
          { result := .error (.fsError e), progressEmits := convEmits ++ slice.1,
            argsPassed := some args, state := st2 }
        | .ok gcode =>
          match st2.fs.unlink "Model.stl" with
          | .error e =>
            { result := .error (.fsError e), progressEmits := convEmits ++ slice.1,
              argsPassed := some args, state := st2 }
          | .ok fs1 =>
            match fs1.unlink "Model.gcode" with
            | .error e =>
              { result := .error (.fsError e), progressEmits := convEmits ++ slice.1,
                argsPassed := some args, state := { st2 with fs := fs1 } }
            | .ok fs2 =>
              { result := .ok (.gcode gcode), progressEmits := convEmits ++ slice.1,
                argsPassed := some args, state := { st2 with fs := fs2 } }

/-! ## Basic lemmas about the rounding and the biases -/

theorem roundSlicerProgress_mono {s t : ℚ} (h : s ≤ t) :
    roundSlicerProgress s ≤ roundSlicerProgress t := by
  unfold roundSlicerProgress jsRound
  have hf : (⌊100 * s + 1/2⌋ : ℤ) ≤ ⌊100 * t + 1/2⌋ :=
    Int.floor_le_floor (by linarith)
  have hc : ((⌊100 * s + 1/2⌋ : ℤ) : ℚ) ≤ ((⌊100 * t + 1/2⌋ : ℤ) : ℚ) := by
    exact_mod_cast hf
  linarith

theorem roundSlicerProgress_nonneg {s : ℚ} (h : 0 ≤ s) :
    0 ≤ roundSlicerProgress s := by
  unfold roundSlicerProgress jsRound
  have hf : (0 : ℤ) ≤ ⌊100 * s + 1/2⌋ := Int.floor_nonneg.mpr (by linarith)
  have hc : (0 : ℚ) ≤ ((⌊100 * s + 1/2⌋ : ℤ) : ℚ) := by exact_mod_cast hf
  linarith

theorem roundSlicerProgress_le_one {s : ℚ} (h : s ≤ 1) :
    roundSlicerProgress s ≤ 1 := by
  unfold roundSlicerProgress jsRound
  have hf : (⌊100 * s + 1/2⌋ : ℤ) ≤ 100 := by
    rw [Int.floor_le_iff]
    push_cast
    linarith
  have hc : ((⌊100 * s + 1/2⌋ : ℤ) : ℚ) ≤ 100 := by exact_mod_cast hf
  linarith

theorem converterBias_nonneg (extension : String) : 0 ≤ converterBias extension := by
  unfold converterBias
  split <;> norm_num

theorem converterBias_le_one (extension : String) : converterBias extension ≤ 1 := by
  unfold converterBias
  split <;> norm_num

theorem slicerBias_nonneg (extension : String) : 0 ≤ slicerBias extension := by
  have := converterBias_le_one extension
  unfold slicerBias
  linarith

theorem converterBias_add_slicerBias (extension : String) :
    converterBias extension + slicerBias extension = 1 := by
  unfold slicerBias
  ring

/-! ## C6 — phase weights -/

/-- C6: for every input extension, the conversion-phase weight is `0`
iff the extension is the canonical `"stl"` format, is `3/10` for every
other extension, and the engine-phase weight is its complement to 1. -/
theorem c6_phase_weights (extension : String) :
    (converterBias extension = 0 ↔ extension = "stl")
    ∧ (extension ≠ "stl" → converterBias extension = 3/10)
    ∧ slicerBias extension = 1 - converterBias extension := by
  refine ⟨?_, ?_, ?_⟩
  · unfold converterBias
    split <;> simp_all
  · intro h
    simp [converterBias, h]
  · unfold slicerBias
    ring

/-- Witness for C6 at the concrete extensions `"stl"` and `"obj"`. -/
theorem c6_phase_weights_witness :
    converterBias "stl" = 0 ∧ converterBias "obj" = 3/10
      ∧ slicerBias "obj" = 1 - converterBias "obj" :=
  ⟨(c6_phase_weights "stl").1.mpr rfl,
   (c6_phase_weights "obj").2.1 (by decide),
   (c6_phase_weights "obj").2.2⟩

/-! ## C4 — the `NotInitialized` guards -/

/-- C4: with no engine handle, `run`, `addDefinitions` and
`removeDefinitions` all fail with the `NotInitialized` error before
doing any other work (`run` additionally delivers no progress, passes no
arguments and leaves the state untouched). -/
theorem c4_not_initialized_guards (st : WorkerState) (h : st.engine = false) :
    (∀ d, addDefinitions st d =
      .error (.notInitialized "Attempting to add definitions before initialization!"))
    ∧ removeDefinitions st =
      .error (.notInitialized "Attempting to remove definitions before initialization!")
    ∧ ∀ cmd ovr vb ext conv eng gen,
        run st cmd ovr vb ext conv eng gen =
          { result := .error
              (.notInitialized "Attempting to run Cura Engine before initialization!"),
            progressEmits := [], argsPassed := none, state := st } := by
  refine ⟨fun d => ?_, ?_, fun cmd ovr vb ext conv eng gen => ?_⟩
  · simp [addDefinitions, h]
  · simp [removeDefinitions, h]
  · simp [run, h]

/-- Witness for C4 on a concrete uninitialized state. -/
theorem c4_not_initialized_guards_witness :
    removeDefinitions ⟨false, ⟨[], []⟩, none, false, false, false⟩ =
      .error (.notInitialized "Attempting to remove definitions before initialization!") :=
  (c4_not_initialized_guards ⟨false, ⟨[], []⟩, none, false, false, false⟩ rfl).2.1

/-! ## C3 — typed converter errors -/

/-- C3: when the converter returns a typed error, `run` returns that
error value through its normal return channel (the result is `.ok` of
the conversion error, not a thrown fault), the engine is never invoked
(`argsPassed = none`), and the worker state — in particular the virtual
filesystem, so no model file — is untouched. -/
theorem c3_conversion_error (st : WorkerState) (h : st.engine = true)
    (conv : ConvOracle) (e : String) (he : conv.result = .error e)
    (cmd : Option String) (ovr : List Override) (vb : Bool) (ext : String)
    (eng : EngineOracle) (gen : List Override → Bool → List String) :
    run st cmd ovr vb ext conv eng gen =
      { result := .ok (.conversionError e),
        progressEmits :=
          converterEmits (converterBias ext) st.hasProgressObserver conv.progress,
        argsPassed := none,
        state := st } := by
  simp [run, h, he]

/-- Witness for C3: a concrete run whose converter fails. -/
theorem c3_conversion_error_witness :
    run ⟨true, ⟨[], []⟩, none, true, false, false⟩ none [] false "obj"
        ⟨[1/2], .error "ConversionError"⟩ ⟨[], false, "G"⟩ (fun _ _ => []) =
      { result := .ok (.conversionError "ConversionError"),
        progressEmits := [3/20],
        argsPassed := none,
        state := ⟨true, ⟨[], []⟩, none, true, false, false⟩ } := by
  rw [c3_conversion_error ⟨true, ⟨[], []⟩, none, true, false, false⟩ rfl
    ⟨[1/2], .error "ConversionError"⟩ "ConversionError" rfl none [] false "obj"
    ⟨[], false, "G"⟩ (fun _ _ => [])]
  norm_num [converterEmits, converterBias]
  decide

/-! ## Helper: shape of a run that reaches the engine -/

/-- On any run that reaches the engine invocation (engine present,
conversion succeeded), the argument vector passed to `callMain` and the
delivered progress sequence are as computed by the blender, regardless
of whether the engine faults. -/
theorem run_engine_reached (st : WorkerState) (h : st.engine = true)
    (conv : ConvOracle) (stl : String) (hc : conv.result = .ok stl)
    (cmd : Option String) (ovr : List Override) (vb : Bool) (ext : String)
    (eng : EngineOracle) (gen : List Override → Bool → List String) :
    (run st cmd ovr vb ext conv eng gen).argsPassed =
      some (match cmd with
        | none => gen ovr vb
        | some c => jsSplitSpace c)
    ∧ (run st cmd ovr vb ext conv eng gen).progressEmits =
      converterEmits (converterBias ext) st.hasProgressObserver conv.progress ++
        (runSlicerCallbacks (converterBias ext) (slicerBias ext)
          st.hasProgressObserver 0 eng.slicerProgress).1 := by
  unfold run
  simp only [h, hc]
  norm_num
  split <;> (try split) <;> (try split) <;> (try split) <;> simp

/-! ## C7 — raw command strings bypass argument synthesis -/

/-- C7: with a non-null raw command string, the argument vector passed
to the engine is exactly the command split on spaces, and the external
argument synthesizer is irrelevant: the whole run is unchanged when the
synthesizer is replaced by any other one. -/
theorem c7_raw_command (st : WorkerState) (h : st.engine = true)
    (conv : ConvOracle) (stl : String) (hc : conv.result = .ok stl)
    (c : String) (ovr : List Override) (vb : Bool) (ext : String)
    (eng : EngineOracle) (gen : List Override → Bool → List String) :
    (run st (some c) ovr vb ext conv eng gen).argsPassed = some (jsSplitSpace c)
    ∧ ∀ gen' : List Override → Bool → List String,
        run st (some c) ovr vb ext conv eng gen =
          run st (some c) ovr vb ext conv eng gen' := by
  constructor
  · exact (run_engine_reached st h conv stl hc (some c) ovr vb ext eng gen).1
  · intro gen'
    unfold run
    simp only [h, hc]

/-- Witness for C7: a concrete command string is tokenized verbatim. -/
theorem c7_raw_command_witness :
    (run ⟨true, ⟨[], []⟩, none, false, false, false⟩ (some "slice -j definitions.json")
        [⟨"", "layer_height", "0.2"⟩] true "stl" ⟨[], .ok "S"⟩ ⟨[], false, "G"⟩
        (fun _ _ => ["synthesized"])).argsPassed =
      some ["slice", "-j", "definitions.json"] := by
  have hw := (c7_raw_command ⟨true, ⟨[], []⟩, none, false, false, false⟩ rfl
    ⟨[], .ok "S"⟩ "S" rfl "slice -j definitions.json"
    [⟨"", "layer_height", "0.2"⟩] true "stl" ⟨[], false, "G"⟩
    (fun _ _ => ["synthesized"])).1
  rw [hw]
  rfl

/-! ## C1 — transient callback hooks (corrected) -/

/-- C1 counterexample: a successful concrete run (starting with no
hooks registered) returns its gcode with the metadata hook still
registered, so it is false that no callback hook registered by `run`
remains registered after `run` returns. -/
theorem c1_counterexample :
    (run ⟨true, ⟨[], []⟩, none, false, false, false⟩ (some "slice") [] false "stl"
        ⟨[], .ok "STL"⟩ ⟨[], false, "G"⟩ (fun _ _ => [])).result =
      .ok (.gcode "G")
    ∧ (run ⟨true, ⟨[], []⟩, none, false, false, false⟩ (some "slice") [] false "stl"
        ⟨[], .ok "STL"⟩ ⟨[], false, "G"⟩ (fun _ _ => [])).state.metadataHook = true := by
  exact ⟨rfl, rfl⟩

/-- C1 amended: every run that reaches the engine call registers both
hooks; when the engine invocation succeeds only the progress hook is
unregistered before `run` returns — the metadata hook remains
registered — and when the engine invocation faults, both hooks remain
registered. -/
theorem c1_amended_hooks (st : WorkerState) (h : st.engine = true)
    (conv : ConvOracle) (stl : String) (hc : conv.result = .ok stl)
    (cmd : Option String) (ovr : List Override) (vb : Bool) (ext : String)
    (eng : EngineOracle) (gen : List Override → Bool → List String) :
    (eng.crashes = false →
      (run st cmd ovr vb ext conv eng gen).state.progressHook = false
      ∧ (run st cmd ovr vb ext conv eng gen).state.metadataHook = true)
    ∧ (eng.crashes = true →
      (run st cmd ovr vb ext conv eng gen).state.progressHook = true
      ∧ (run st cmd ovr vb ext conv eng gen).state.metadataHook = true) := by
  unfold run
  simp only [h, hc]
  norm_num
  constructor
  · intro hcr
    simp only [hcr]
    norm_num
    split <;> (try split) <;> (try split) <;> simp
  · intro hcr
    simp [hcr]

/-- Witness for the amended C1 on a concrete faulting run. -/
theorem c1_amended_hooks_witness :
    (run ⟨true, ⟨[], []⟩, none, false, false, false⟩ none [] false "stl"
        ⟨[], .ok "S"⟩ ⟨[], true, "G"⟩ (fun _ _ => ["a"])).state.progressHook = true :=
  ((c1_amended_hooks ⟨true, ⟨[], []⟩, none, false, false, false⟩ rfl
    ⟨[], .ok "S"⟩ "S" rfl none [] false "stl" ⟨[], true, "G"⟩
    (fun _ _ => ["a"])).2 rfl).1

/-! ## Equation lemmas for the slicer progress machine -/

theorem progressCallback_of_ne (cBias sBias : ℚ) (obs : Bool) {prev s : ℚ}
    (h : roundSlicerProgress s ≠ prev) :
    progressCallback cBias sBias obs prev s =
      (roundSlicerProgress s,
        if obs then some (roundSlicerProgress s * sBias + cBias) else none) := by
  unfold progressCallback
  rw [if_pos h]

theorem progressCallback_of_ne_true (cBias sBias : ℚ) {prev s : ℚ}
    (h : roundSlicerProgress s ≠ prev) :
    progressCallback cBias sBias true prev s =
      (roundSlicerProgress s, some (roundSlicerProgress s * sBias + cBias)) := by
  rw [progressCallback_of_ne cBias sBias true h]
  simp

theorem progressCallback_of_eq (cBias sBias : ℚ) (obs : Bool) {prev s : ℚ}
    (h : roundSlicerProgress s = prev) :
    progressCallback cBias sBias obs prev s = (prev, none) := by
  unfold progressCallback
  rw [if_neg (not_not_intro h)]

theorem runSlicerCallbacks_cons_none {cBias sBias : ℚ} {obs : Bool}
    {prev s p' : ℚ} (rest : List ℚ)
    (h : progressCallback cBias sBias obs prev s = (p', none)) :
    runSlicerCallbacks cBias sBias obs prev (s :: rest) =
      runSlicerCallbacks cBias sBias obs p' rest := by
  simp only [runSlicerCallbacks, h]

theorem runSlicerCallbacks_cons_some {cBias sBias : ℚ} {obs : Bool}
    {prev s p' v : ℚ} (rest : List ℚ)
    (h : progressCallback cBias sBias obs prev s = (p', some v)) :
    runSlicerCallbacks cBias sBias obs prev (s :: rest) =
      (v :: (runSlicerCallbacks cBias sBias obs p' rest).1,
        (runSlicerCallbacks cBias sBias obs p' rest).2) := by
  simp only [runSlicerCallbacks, h]

/-- Evaluate the two-decimal rounding on explicit inputs. -/
theorem roundSlicerProgress_eq {s : ℚ} (n : ℤ) (h1 : (n : ℚ) ≤ 100 * s + 1/2)
    (h2 : 100 * s + 1/2 < (n : ℚ) + 1) :
    roundSlicerProgress s = (n : ℚ) / 100 := by
  unfold roundSlicerProgress jsRound
  rw [Int.floor_eq_iff.mpr ⟨h1, h2⟩]

/-- If no value was forwarded over a whole callback sequence (with an
observer attached), the dedup state is unchanged. -/
theorem runSlicerCallbacks_emits_nil_state (cBias sBias : ℚ) :
    ∀ (l : List ℚ) (prev : ℚ),
      (runSlicerCallbacks cBias sBias true prev l).1 = [] →
      (runSlicerCallbacks cBias sBias true prev l).2 = prev := by
  intro l
  induction l with
  | nil => intro prev _; rfl
  | cons a t ih =>
    intro prev hnil
    by_cases ha : roundSlicerProgress a = prev
    · rw [runSlicerCallbacks_cons_none t (progressCallback_of_eq cBias sBias true ha)]
        at hnil ⊢
      exact ih prev hnil
    · rw [runSlicerCallbacks_cons_some t (progressCallback_of_ne_true cBias sBias ha)]
        at hnil
      simp at hnil

/-- A callback sequence whose rounded values all equal the dedup state
forwards nothing and leaves the state unchanged. -/
theorem runSlicerCallbacks_all_round_eq (cBias sBias : ℚ) (obs : Bool) :
    ∀ (l : List ℚ) (prev : ℚ), (∀ x ∈ l, roundSlicerProgress x = prev) →
      runSlicerCallbacks cBias sBias obs prev l = ([], prev) := by
  intro l
  induction l with
  | nil => intro prev _; rfl
  | cons a t ih =>
    intro prev hall
    rw [runSlicerCallbacks_cons_none t
      (progressCallback_of_eq cBias sBias obs (hall a (by simp)))]
    exact ih prev (fun x hx => hall x (by simp [hx]))

/-! ## C5 — deduplication of rounded slicer progress -/

/-- C5: two consecutive raw engine progress values that round to the
same two-decimal value never produce a second emission; moreover (with a
subscriber attached) a value is forwarded exactly when its rounded value
differs from the stored dedup state — the last forwarded rounded value —
and forwarding stores that rounded value. -/
theorem c5_dedup (cBias sBias : ℚ) (obs : Bool) (prev s₁ s₂ : ℚ)
    (h : roundSlicerProgress s₁ = roundSlicerProgress s₂) :
    (progressCallback cBias sBias obs
      (progressCallback cBias sBias obs prev s₁).1 s₂).2 = none
    ∧ (∀ p s : ℚ,
        (progressCallback cBias sBias true p s).2 =
          (if roundSlicerProgress s ≠ p
           then some (roundSlicerProgress s * sBias + cBias) else none))
    ∧ (∀ p s : ℚ, (progressCallback cBias sBias obs p s).2 ≠ none →
        (progressCallback cBias sBias obs p s).1 = roundSlicerProgress s) := by
  refine ⟨?_, fun p s => ?_, fun p s => ?_⟩
  · by_cases h1 : roundSlicerProgress s₁ = prev
    · rw [progressCallback_of_eq cBias sBias obs h1,
        progressCallback_of_eq cBias sBias obs (h ▸ h1)]
    · rw [progressCallback_of_ne cBias sBias obs h1,
        progressCallback_of_eq cBias sBias obs (h.symm)]
  · by_cases h1 : roundSlicerProgress s = p
    · rw [progressCallback_of_eq cBias sBias true h1, if_neg (not_not_intro h1)]
    · rw [progressCallback_of_ne_true cBias sBias h1, if_pos h1]
  · intro hemit
    by_cases h1 : roundSlicerProgress s = p
    · rw [progressCallback_of_eq cBias sBias obs h1] at hemit
      simp at hemit
    · rw [progressCallback_of_ne cBias sBias obs h1]

/-- Witness for C5: two consecutive raw values rounding to `0.5`. -/
theorem c5_dedup_witness :
    (progressCallback (3/10) (7/10) true
      (progressCallback (3/10) (7/10) true 0 (1/2)).1 (501/1000)).2 = none := by
  have h1 : roundSlicerProgress (1/2) = 1/2 := by
    have h := roundSlicerProgress_eq (s := 1/2) 50 (by norm_num) (by norm_num)
    norm_num at h
    exact h
  have h2 : roundSlicerProgress (501/1000) = 1/2 := by
    have h := roundSlicerProgress_eq (s := 501/1000) 50 (by norm_num) (by norm_num)
    norm_num at h
    exact h
  exact (c5_dedup (3/10) (7/10) true 0 (1/2) (501/1000) (h1.trans h2.symm)).1

/-! ## C10 — the initial dedup state (corrected) -/

/-- C10 counterexample: after the first forwarded value, the
deduplication state no longer holds `0`, and a later raw value rounding
to `0.00` IS forwarded.  Concretely, with the biases of an `"stl"` run,
raw slicer value `1/2` followed by `1/1000` (which rounds to `0.00`)
produces the emission `some 0` for the second value — refuting the claim
that a raw engine value rounding to `0.00` is never forwarded. -/
theorem c10_counterexample :
    roundSlicerProgress (1/1000) = 0
    ∧ (progressCallback (converterBias "stl") (slicerBias "stl") true
        (progressCallback (converterBias "stl") (slicerBias "stl") true 0 (1/2)).1
        (1/1000)).2 = some 0 := by
  have hcB : converterBias "stl" = 0 := by
    unfold converterBias
    rw [if_pos rfl]
  have hsB : slicerBias "stl" = 1 := by
    unfold slicerBias
    rw [hcB]
    norm_num
  have h0 : roundSlicerProgress (1/1000) = 0 := by
    have h := roundSlicerProgress_eq (s := 1/1000) 0 (by norm_num) (by norm_num)
    norm_num at h
    exact h
  have h5 : roundSlicerProgress (1/2) = 1/2 := by
    have h := roundSlicerProgress_eq (s := 1/2) 50 (by norm_num) (by norm_num)
    norm_num at h
    exact h
  refine ⟨h0, ?_⟩
  have hne5 : roundSlicerProgress (1/2) ≠ (0 : ℚ) := by
    rw [h5]
    norm_num
  have hstate :
      (progressCallback (converterBias "stl") (slicerBias "stl") true 0 (1/2)).1
        = 1/2 := by
    rw [progressCallback_of_ne_true _ _ hne5, h5]
  rw [hstate]
  have hne0 : roundSlicerProgress (1/1000) ≠ (1/2 : ℚ) := by
    rw [h0]
    norm_num
  rw [progressCallback_of_ne_true _ _ hne0]
  rw [h0, hcB, hsB]
  norm_num

/-- C10 amended: `run` starts the engine phase with the deduplication
state `0`, so along any non-decreasing sequence of non-negative raw
engine fractions a value that rounds to `0.00` is never forwarded; and
unconditionally, an emission produced while nothing has yet been
forwarded corresponds to a rounded raw value different from `0`. -/
theorem c10_amended_initial_state (cBias sBias : ℚ) (obs : Bool) (raws : List ℚ)
    (l₁ : List ℚ) (s : ℚ) (l₂ : List ℚ) (hsplit : raws = l₁ ++ s :: l₂) :
    (raws.Sorted (· ≤ ·) → (∀ x ∈ raws, 0 ≤ x) → roundSlicerProgress s = 0 →
      (progressCallback cBias sBias obs
        (runSlicerCallbacks cBias sBias obs 0 l₁).2 s).2 = none)
    ∧ ((runSlicerCallbacks cBias sBias true 0 l₁).1 = [] →
      (progressCallback cBias sBias true
        (runSlicerCallbacks cBias sBias true 0 l₁).2 s).2 ≠ none →
      roundSlicerProgress s ≠ 0) := by
  subst hsplit
  constructor
  · intro hsort hnn hr0
    have hall : ∀ x ∈ l₁, roundSlicerProgress x = (0 : ℚ) := by
      intro x hx
      have hxs : x ≤ s := by
        have hcross := (List.pairwise_append.mp hsort).2.2
        exact hcross x hx s (by simp)
      have hle : roundSlicerProgress x ≤ 0 := hr0 ▸ roundSlicerProgress_mono hxs
      have hge : 0 ≤ roundSlicerProgress x :=
        roundSlicerProgress_nonneg (hnn x (List.mem_append_left _ hx))
      linarith
    rw [runSlicerCallbacks_all_round_eq cBias sBias obs l₁ 0 hall]
    rw [progressCallback_of_eq cBias sBias obs hr0]
  · intro hnil hemit hr0
    rw [runSlicerCallbacks_emits_nil_state cBias sBias l₁ 0 hnil,
      progressCallback_of_eq cBias sBias true hr0] at hemit
    simp at hemit

/-- Witness for the amended C10. -/
theorem c10_amended_initial_state_witness :
    (progressCallback 0 1 true (runSlicerCallbacks 0 1 true 0 [1/1000]).2 (3/1000)).2
      = none := by
  have hs : List.Sorted (· ≤ ·) [(1 : ℚ)/1000, 3/1000] := by
    refine List.sorted_cons.mpr ⟨?_, List.sorted_singleton _⟩
    intro b hb
    simp at hb
    rw [hb]
    norm_num
  have hr : roundSlicerProgress (3/1000) = 0 := by
    have h := roundSlicerProgress_eq (s := 3/1000) 0 (by norm_num) (by norm_num)
    norm_num at h
    exact h
  refine (c10_amended_initial_state 0 1 true [1/1000, 3/1000] [1/1000] (3/1000) [] rfl).1
    hs ?_ hr
  intro x hx
  simp at hx
  rcases hx with h | h <;> rw [h] <;> norm_num


/-! ## C2 — the blended progress stream is monotone and bounded -/

theorem progressCallback_of_ne_false (cBias sBias : ℚ) {prev s : ℚ}
    (h : roundSlicerProgress s ≠ prev) :
    progressCallback cBias sBias false prev s = (roundSlicerProgress s, none) := by
  rw [progressCallback_of_ne cBias sBias false h]
  simp

/-- Along a non-decreasing raw sequence whose rounded values dominate the
dedup state, the emitted values are non-decreasing and bounded below by
`prev * sBias + cBias`. -/
theorem runSlicerCallbacks_sorted (cBias sBias : ℚ) (hsB : 0 ≤ sBias) (obs : Bool) :
    ∀ (l : List ℚ) (prev : ℚ), l.Sorted (· ≤ ·) →
      (∀ s ∈ l, prev ≤ roundSlicerProgress s) →
      ((runSlicerCallbacks cBias sBias obs prev l).1.Sorted (· ≤ ·)
       ∧ ∀ v ∈ (runSlicerCallbacks cBias sBias obs prev l).1,
           prev * sBias + cBias ≤ v) := by
  intro l
  induction l with
  | nil =>
    intro prev _ _
    exact ⟨List.sorted_nil, by intro v hv; simp [runSlicerCallbacks] at hv⟩
  | cons a t ih =>
    intro prev hsort hpre
    have hta : ∀ x ∈ t, a ≤ x := (List.sorted_cons.mp hsort).1
    have htsort : t.Sorted (· ≤ ·) := (List.sorted_cons.mp hsort).2
    have hpa : prev ≤ roundSlicerProgress a := hpre a (by simp)
    have hmul : prev * sBias ≤ roundSlicerProgress a * sBias :=
      mul_le_mul_of_nonneg_right hpa hsB
    by_cases ha : roundSlicerProgress a = prev
    · rw [runSlicerCallbacks_cons_none t (progressCallback_of_eq cBias sBias obs ha)]
      exact ih prev htsort (fun x hx => hpre x (by simp [hx]))
    · have hnext : ∀ x ∈ t, roundSlicerProgress a ≤ roundSlicerProgress x :=
        fun x hx => roundSlicerProgress_mono (hta x hx)
      have hrec := ih (roundSlicerProgress a) htsort hnext
      cases hobs : obs with
      | false =>
        subst hobs
        rw [runSlicerCallbacks_cons_none t (progressCallback_of_ne_false cBias sBias ha)]
        refine ⟨hrec.1, fun v hv => ?_⟩
        have := hrec.2 v hv
        linarith
      | true =>
        subst hobs
        rw [runSlicerCallbacks_cons_some t (progressCallback_of_ne_true cBias sBias ha)]
        constructor
        · exact List.sorted_cons.mpr ⟨fun b hb => hrec.2 b hb, hrec.1⟩
        · intro v hv
          rcases List.mem_cons.mp hv with rfl | hv'
          · linarith
          · have := hrec.2 v hv'
            linarith

/-- Every emitted slicer-phase value is the blend of a rounded raw
value from the input sequence. -/
theorem runSlicerCallbacks_mem (cBias sBias : ℚ) (obs : Bool) :
    ∀ (l : List ℚ) (prev : ℚ), ∀ v ∈ (runSlicerCallbacks cBias sBias obs prev l).1,
      ∃ s ∈ l, v = roundSlicerProgress s * sBias + cBias := by
  intro l
  induction l with
  | nil =>
    intro prev v hv
    simp [runSlicerCallbacks] at hv
  | cons a t ih =>
    intro prev v hv
    by_cases ha : roundSlicerProgress a = prev
    · rw [runSlicerCallbacks_cons_none t
        (progressCallback_of_eq cBias sBias obs ha)] at hv
      obtain ⟨s, hs, hvs⟩ := ih prev v hv
      exact ⟨s, by simp [hs], hvs⟩
    · cases hobs : obs with
      | false =>
        subst hobs
        rw [runSlicerCallbacks_cons_none t
          (progressCallback_of_ne_false cBias sBias ha)] at hv
        obtain ⟨s, hs, hvs⟩ := ih (roundSlicerProgress a) v hv
        exact ⟨s, by simp [hs], hvs⟩
      | true =>
        subst hobs
        rw [runSlicerCallbacks_cons_some t
          (progressCallback_of_ne_true cBias sBias ha)] at hv
        rcases List.mem_cons.mp hv with rfl | hv'
        · exact ⟨a, by simp, rfl⟩
        · obtain ⟨s, hs, hvs⟩ := ih (roundSlicerProgress a) v hv'
          exact ⟨s, by simp [hs], hvs⟩

/-- C2: on a successful run in which the converter and the engine each
report non-decreasing raw fractions within `[0, 1]`, the sequence of
values delivered to the progress subscriber is non-decreasing and every
delivered value lies in `[0, 1]`. -/
theorem c2_progress_monotone_bounded (st : WorkerState) (h : st.engine = true)
    (hobs : st.hasProgressObserver = true)
    (conv : ConvOracle) (stl : String) (hc : conv.result = .ok stl)
    (eng : EngineOracle) (_hcr : eng.crashes = false)
    (hcs : conv.progress.Sorted (· ≤ ·))
    (hcb : ∀ p ∈ conv.progress, 0 ≤ p ∧ p ≤ 1)
    (hss : eng.slicerProgress.Sorted (· ≤ ·))
    (hsb : ∀ p ∈ eng.slicerProgress, 0 ≤ p ∧ p ≤ 1)
    (cmd : Option String) (ovr : List Override) (vb : Bool) (ext : String)
    (gen : List Override → Bool → List String) :
    (run st cmd ovr vb ext conv eng gen).progressEmits.Sorted (· ≤ ·)
    ∧ ∀ v ∈ (run st cmd ovr vb ext conv eng gen).progressEmits,
        0 ≤ v ∧ v ≤ 1 := by
  obtain ⟨-, hemits⟩ := run_engine_reached st h conv stl hc cmd ovr vb ext eng gen
  rw [hemits, hobs]
  have hcB0 : 0 ≤ converterBias ext := converterBias_nonneg ext
  have hcB1 : converterBias ext ≤ 1 := converterBias_le_one ext
  have hsB0 : 0 ≤ slicerBias ext := slicerBias_nonneg ext
  have hsum : converterBias ext + slicerBias ext = 1 :=
    converterBias_add_slicerBias ext
  have hconv_sorted :
      (converterEmits (converterBias ext) true conv.progress).Sorted (· ≤ ·) := by
    unfold converterEmits
    rw [if_pos rfl]
    exact List.Pairwise.map _
      (fun a b hab => mul_le_mul_of_nonneg_right hab hcB0) hcs
  have hconv_bound : ∀ v ∈ converterEmits (converterBias ext) true conv.progress,
      0 ≤ v ∧ v ≤ converterBias ext := by
    unfold converterEmits
    rw [if_pos rfl]
    intro v hv
    obtain ⟨p, hp, rfl⟩ := List.mem_map.mp hv
    obtain ⟨hp0, hp1⟩ := hcb p hp
    constructor
    · exact mul_nonneg hp0 hcB0
    · calc p * converterBias ext ≤ 1 * converterBias ext :=
        mul_le_mul_of_nonneg_right hp1 hcB0
      _ = converterBias ext := one_mul _
  have hpre : ∀ s ∈ eng.slicerProgress, (0 : ℚ) ≤ roundSlicerProgress s :=
    fun s hs => roundSlicerProgress_nonneg (hsb s hs).1
  have hslice := runSlicerCallbacks_sorted (converterBias ext) (slicerBias ext)
    hsB0 true eng.slicerProgress 0 hss hpre
  have hslice_lo : ∀ v ∈ (runSlicerCallbacks (converterBias ext) (slicerBias ext)
      true 0 eng.slicerProgress).1, converterBias ext ≤ v := by
    intro v hv
    have := hslice.2 v hv
    linarith
  have hslice_bound : ∀ v ∈ (runSlicerCallbacks (converterBias ext) (slicerBias ext)
      true 0 eng.slicerProgress).1, 0 ≤ v ∧ v ≤ 1 := by
    intro v hv
    obtain ⟨s, hsmem, rfl⟩ := runSlicerCallbacks_mem (converterBias ext)
      (slicerBias ext) true eng.slicerProgress 0 v hv
    obtain ⟨hs0, hs1⟩ := hsb s hsmem
    have hr0 : 0 ≤ roundSlicerProgress s := roundSlicerProgress_nonneg hs0
    have hr1 : roundSlicerProgress s ≤ 1 := roundSlicerProgress_le_one hs1
    constructor
    · have : 0 ≤ roundSlicerProgress s * slicerBias ext := mul_nonneg hr0 hsB0
      linarith
    · have : roundSlicerProgress s * slicerBias ext ≤ 1 * slicerBias ext :=
        mul_le_mul_of_nonneg_right hr1 hsB0
      linarith
  constructor
  · refine List.pairwise_append.mpr ⟨hconv_sorted, hslice.1, ?_⟩
    intro a ha b hb
    have ha' := (hconv_bound a ha).2
    have hb' := hslice_lo b hb
    linarith
  · intro v hv
    rcases List.mem_append.mp hv with hv | hv
    · obtain ⟨h0, h1⟩ := hconv_bound v hv
      exact ⟨h0, by linarith⟩
    · exact hslice_bound v hv

/-- Witness for C2 on a concrete successful `"obj"` run. -/
theorem c2_progress_monotone_bounded_witness :
    ((run ⟨true, ⟨[], []⟩, none, true, false, false⟩ none [] false "obj"
        ⟨[1/2, 1], .ok "S"⟩ ⟨[1/2, 1], false, "G"⟩
        (fun _ _ => ["a"])).progressEmits.Sorted (· ≤ ·)) := by
  refine (c2_progress_monotone_bounded ⟨true, ⟨[], []⟩, none, true, false, false⟩ rfl rfl
    ⟨[1/2, 1], .ok "S"⟩ "S" rfl ⟨[1/2, 1], false, "G"⟩ rfl ?_ ?_ ?_ ?_
    none [] false "obj" (fun _ _ => ["a"])).1
  · refine List.sorted_cons.mpr ⟨?_, List.sorted_singleton _⟩
    intro b hb
    simp at hb
    rw [hb]
    norm_num
  · intro p hp
    simp at hp
    rcases hp with h | h <;> rw [h] <;> norm_num
  · refine List.sorted_cons.mpr ⟨?_, List.sorted_singleton _⟩
    intro b hb
    simp at hb
    rw [hb]
    norm_num
  · intro p hp
    simp at hp
    rcases hp with h | h <;> rw [h] <;> norm_num

/-! ## Injectivity of the decimal rendering of extruder indices -/

/-- Decimal value of a digit character. -/
def digitVal (c : Char) : Nat := c.toNat - 48

/-- Value of a digit string continuing an accumulator. -/
def digitsVal (a : Nat) (l : List Char) : Nat :=
  l.foldl (fun acc c => 10 * acc + digitVal c) a

theorem digitVal_digitChar (d : Nat) (hd : d < 10) :
    digitVal (Nat.digitChar d) = d := by
  interval_cases d <;> rfl

theorem toDigitsCore_acc (b : Nat) :
    ∀ (fuel n : Nat) (ds : List Char),
      Nat.toDigitsCore b fuel n ds = Nat.toDigitsCore b fuel n [] ++ ds := by
  intro fuel
  induction fuel with
  | zero =>
    intro n ds
    simp [Nat.toDigitsCore]
  | succ f ih =>
    intro n ds
    by_cases h : n / b = 0
    · simp [Nat.toDigitsCore, h]
    · simp only [Nat.toDigitsCore, h, if_neg h]
      rw [ih (n / b) (Nat.digitChar (n % b) :: ds), ih (n / b) [Nat.digitChar (n % b)]]
      simp

theorem digitsVal_append (a : Nat) (l₁ l₂ : List Char) :
    digitsVal a (l₁ ++ l₂) = digitsVal (digitsVal a l₁) l₂ := by
  unfold digitsVal
  exact List.foldl_append _ _ _ _

theorem digitsVal_toDigitsCore :
    ∀ (fuel n a : Nat), n < fuel →
      digitsVal a (Nat.toDigitsCore 10 fuel n []) =
        a * 10 ^ (Nat.toDigitsCore 10 fuel n []).length + n := by
  intro fuel
  induction fuel with
  | zero =>
    intro n a h
    exact absurd h (Nat.not_lt_zero n)
  | succ f ih =>
    intro n a h
    by_cases h0 : n / 10 = 0
    · have hsingle : Nat.toDigitsCore 10 (f + 1) n [] = [Nat.digitChar (n % 10)] := by
        simp [Nat.toDigitsCore, h0]
      rw [hsingle]
      have hd := digitVal_digitChar (n % 10) (Nat.mod_lt n (by norm_num))
      simp only [digitsVal, List.foldl_cons, List.foldl_nil, List.length_cons,
        List.length_nil, hd]
      have : n % 10 = n := by omega
      simp [this]
      ring
    · have hsplit : Nat.toDigitsCore 10 (f + 1) n [] =
          Nat.toDigitsCore 10 f (n / 10) [] ++ [Nat.digitChar (n % 10)] := by
        simp only [Nat.toDigitsCore, if_neg h0]
        exact toDigitsCore_acc 10 f (n / 10) [Nat.digitChar (n % 10)]
      rw [hsplit]
      have hlt : n / 10 < f := by omega
      have hih := ih (n / 10) a hlt
      rw [digitsVal_append, hih]
      have hd := digitVal_digitChar (n % 10) (Nat.mod_lt n (by norm_num))
      have h1 : digitsVal
          (a * 10 ^ (Nat.toDigitsCore 10 f (n / 10) []).length + n / 10)
          [Nat.digitChar (n % 10)] =
          10 * (a * 10 ^ (Nat.toDigitsCore 10 f (n / 10) []).length + n / 10)
            + n % 10 := by
        simp [digitsVal, hd]
      rw [h1, List.length_append]
      simp only [List.length_cons, List.length_nil, Nat.zero_add]
      rw [pow_succ]
      have hassoc : a * (10 ^ (Nat.toDigitsCore 10 f (n / 10) []).length * 10)
          = a * 10 ^ (Nat.toDigitsCore 10 f (n / 10) []).length * 10 := by ring
      rw [hassoc]
      generalize a * 10 ^ (Nat.toDigitsCore 10 f (n / 10) []).length = m
      omega

theorem toDigits_ten_inj {m n : Nat}
    (h : Nat.toDigits 10 m = Nat.toDigits 10 n) : m = n := by
  have hm := digitsVal_toDigitsCore (m + 1) m 0 (Nat.lt_succ_self m)
  have hn := digitsVal_toDigitsCore (n + 1) n 0 (Nat.lt_succ_self n)
  unfold Nat.toDigits at h
  rw [h] at hm
  simp only [Nat.zero_mul, Nat.zero_add] at hm hn
  rw [hm] at hn
  exact hn

theorem nat_repr_inj {m n : Nat} (h : Nat.repr m = Nat.repr n) : m = n := by
  apply toDigits_ten_inj
  have hd := congrArg String.data h
  simpa [Nat.repr, List.asString] using hd

/-! ## Distinctness and placement of the staged paths -/

theorem extruderPath_inj : Function.Injective extruderPath := by
  intro i j h
  unfold extruderPath at h
  have hd := congrArg String.data h
  simp only [String.data_append] at hd
  have h1 : "/definitions/extruder-".data ++ (Nat.repr i).data =
      "/definitions/extruder-".data ++ (Nat.repr j).data :=
    List.append_cancel_right hd
  have h2 : (Nat.repr i).data = (Nat.repr j).data := List.append_cancel_left h1
  exact nat_repr_inj (String.ext h2)

/-- An extruder path never coincides with a string whose first 22
characters differ from `"/definitions/extruder-"`. -/
theorem extruderPath_ne (i : Nat) (L : String)
    (h22 : L.data.take 22 ≠ "/definitions/extruder-".data) :
    extruderPath i ≠ L := by
  intro h
  apply h22
  have hd := congrArg String.data h
  simp only [extruderPath, String.data_append] at hd
  rw [← hd, List.append_assoc]
  have hA : ("/definitions/extruder-".data).length = 22 := rfl
  rw [← hA, List.take_left]

/-- Every staged path lies inside the `/definitions` directory. -/
theorem pathInDir_append (x : String) :
    pathInDir "/definitions" ("/definitions/" ++ x) = true := by
  unfold pathInDir
  have heq : ("/definitions" ++ "/").data = "/definitions/".data := rfl
  rw [heq, String.data_append]
  simp only [List.isPrefixOf_iff_prefix]
  exact List.prefix_append _ _

theorem pathInDir_primaryPath (name : String) :
    pathInDir "/definitions" (primaryPath name) = true := by
  unfold pathInDir primaryPath
  have heq : ("/definitions" ++ "/").data = "/definitions/".data := rfl
  rw [heq]
  simp only [String.data_append, List.isPrefixOf_iff_prefix, List.append_assoc]
  exact List.prefix_append _ _

theorem pathInDir_extruderPath (i : Nat) :
    pathInDir "/definitions" (extruderPath i) = true := by
  unfold pathInDir extruderPath
  have heq : ("/definitions" ++ "/").data = "/definitions/".data := rfl
  have hsplit : "/definitions/extruder-".data =
      "/definitions/".data ++ "extruder-".data := rfl
  rw [heq]
  simp only [String.data_append, List.isPrefixOf_iff_prefix, List.append_assoc,
    hsplit]
  exact List.prefix_append _ _

/-- The unlink order used by `removeDefinitions` for a recorded extruder
count `n`: primary definitions, the printer definition, then the `n`
extruder files. -/
def stagedPaths (n : Nat) : List String :=
  definitions.map (fun x => primaryPath x.1)
    ++ ["/definitions/printer.def.json"]
    ++ (List.range n).map extruderPath

/-- The write order used by `addDefinitions`, with file contents. -/
def stagedEntries (d : CombinedDefinition) : List (String × String) :=
  definitions.map (fun x => (primaryPath x.1, x.2))
    ++ [("/definitions/printer.def.json", d.printer)]
    ++ d.extruders.enum.map (fun ie => (extruderPath ie.1, ie.2))

theorem stagedEntries_fst (d : CombinedDefinition) :
    (stagedEntries d).map Prod.fst = stagedPaths d.extruders.length := by
  unfold stagedEntries stagedPaths
  rw [← List.enum_map_fst d.extruders]
  simp only [List.map_append, List.map_map, List.map_cons, List.map_nil]
  rfl

theorem stagedPaths_in_dir (n : Nat) :
    ∀ p ∈ stagedPaths n, pathInDir "/definitions" p = true := by
  intro p hp
  unfold stagedPaths at hp
  simp only [List.mem_append, List.mem_map, List.mem_singleton] at hp
  rcases hp with (⟨x, -, rfl⟩ | rfl) | ⟨i, -, rfl⟩
  · exact pathInDir_primaryPath x.1
  · exact pathInDir_append "printer.def.json"
  · exact pathInDir_extruderPath i

theorem stagedPaths_nodup (n : Nat) : (stagedPaths n).Nodup := by
  unfold stagedPaths
  rw [List.append_assoc, List.nodup_append, List.nodup_append]
  refine ⟨?_, ⟨?_, ?_, ?_⟩, ?_⟩
  · decide
  · decide
  · exact (List.nodup_range n).map extruderPath_inj
  · intro a ha hb
    simp only [List.mem_singleton] at ha
    simp only [List.mem_map] at hb
    obtain ⟨i, -, hie⟩ := hb
    subst ha
    exact extruderPath_ne i "/definitions/printer.def.json" (by decide) hie
  · intro a ha hb
    simp only [List.mem_map] at ha
    obtain ⟨x, hx, hxa⟩ := ha
    simp only [List.mem_append, List.mem_singleton, List.mem_map] at hb
    rcases hb with rfl | ⟨i, -, hie⟩
    · fin_cases hx <;> exact absurd hxa (by decide)
    · have h := hie.trans hxa.symm
      fin_cases hx <;> exact extruderPath_ne i _ (by decide) h

/-! ## Filesystem bookkeeping for staging and unstaging -/

theorem writeFile_fresh (fs : FS) (p data : String) (h : fs.hasFile p = false) :
    fs.writeFile p data = ⟨fs.dirs, (p, data) :: fs.files⟩ := by
  unfold FS.writeFile
  have hfil : fs.files.filter (fun e => e.1 != p) = fs.files := by
    apply List.filter_eq_self.mpr
    intro e he
    have hne := List.any_eq_false.mp h e he
    simpa using hne
  rw [hfil]

theorem foldl_writeFile_fresh :
    ∀ (ws : List (String × String)) (fs : FS),
      (∀ p ∈ ws.map Prod.fst, fs.hasFile p = false) →
      (ws.map Prod.fst).Nodup →
      ws.foldl (fun fs e => fs.writeFile e.1 e.2) fs =
        ⟨fs.dirs, ws.reverse ++ fs.files⟩ := by
  intro ws
  induction ws with
  | nil =>
    intro fs _ _
    rfl
  | cons w t ih =>
    intro fs hfresh hnodup
    simp only [List.foldl_cons]
    rw [writeFile_fresh fs w.1 w.2 (hfresh w.1 (by simp))]
    have hw_not : w.1 ∉ t.map Prod.fst := (List.nodup_cons.mp hnodup).1
    have hrec := ih ⟨fs.dirs, (w.1, w.2) :: fs.files⟩ ?_ (List.nodup_cons.mp hnodup).2
    · rw [hrec]
      simp [List.reverse_cons, List.append_assoc]
    · intro q hq
      have hq0 : fs.hasFile q = false := hfresh q (by simp [hq])
      have hne : w.1 ≠ q := fun hc => hw_not (hc ▸ hq)
      unfold FS.hasFile at hq0 ⊢
      simp only [List.any_cons, Bool.or_eq_false_iff]
      exact ⟨by simpa using hne, hq0⟩

theorem unlink_ok (fs : FS) (p : String) (h : fs.hasFile p = true) :
    FS.unlink fs p = .ok ⟨fs.dirs, fs.files.filter (fun e => e.1 != p)⟩ := by
  unfold FS.unlink
  rw [if_pos h]

/-- Keys of a key-filtered association list. -/
theorem map_fst_filter_key (p : String) :
    ∀ (l : List (String × String)),
      (l.filter (fun e => e.1 != p)).map Prod.fst =
        (l.map Prod.fst).filter (fun x => x != p) := by
  intro l
  induction l with
  | nil => rfl
  | cons e t ih =>
    by_cases h : e.1 = p
    · simp [List.filter_cons, h, ih]
    · simp [List.filter_cons, h, ih]

/-- On duplicate-free lists, filtering one key out is erasure. -/
theorem filter_bne_eq_erase (p : String) :
    ∀ (l : List String), l.Nodup →
      l.filter (fun x => x != p) = l.erase p := by
  intro l
  induction l with
  | nil => intro _; rfl
  | cons a t ih =>
    intro hnd
    by_cases h : a = p
    · subst h
      rw [List.erase_cons_head]
      simp only [List.filter_cons, bne_self_eq_false, cond_false]
      apply List.filter_eq_self.mpr
      intro b hb
      have : b ≠ a := fun hc => (List.nodup_cons.mp hnd).1 (hc ▸ hb)
      simpa using this
    · rw [List.erase_cons_tail (by simpa using h)]
      simp only [List.filter_cons]
      have hab : (a != p) = true := by simpa using h
      rw [hab]
      simp [ih (List.nodup_cons.mp hnd).2]

/-- The unlink sequence performed by `removeDefinitions`. -/
def unlinkPathsM (fs : FS) (ps : List String) : Except WError FS :=
  ps.foldlM (fun fs p => (FS.unlink fs p).mapError WError.fsError) fs

theorem unlinkPathsM_cons (fs : FS) (p : String) (ps : List String) (fs' : FS)
    (h : FS.unlink fs p = .ok fs') :
    unlinkPathsM fs (p :: ps) = unlinkPathsM fs' ps := by
  unfold unlinkPathsM
  rw [List.foldlM_cons, h]
  rfl

/-- Unlinking a permutation of exactly the keys sitting in front of the
untouched suffix removes exactly those entries. -/
theorem unlinkPathsM_restore :
    ∀ (ps : List String) (cur rest : List (String × String)) (ds : List String),
      List.Perm (cur.map Prod.fst) ps → ps.Nodup →
      (∀ p ∈ ps, ∀ e ∈ rest, e.1 ≠ p) →
      unlinkPathsM ⟨ds, cur ++ rest⟩ ps = .ok ⟨ds, rest⟩ := by
  intro ps
  induction ps with
  | nil =>
    intro cur rest ds hperm _ _
    have hc : cur = [] := List.map_eq_nil_iff.mp hperm.eq_nil
    subst hc
    rfl
  | cons p ps' ih =>
    intro cur rest ds hperm hnodup hfresh
    have hp : p ∈ cur.map Prod.fst := hperm.mem_iff.mpr (by simp)
    have hhas : FS.hasFile ⟨ds, cur ++ rest⟩ p = true := by
      obtain ⟨e, he, hpe⟩ := List.mem_map.mp hp
      unfold FS.hasFile
      apply List.any_eq_true.mpr
      exact ⟨e, by simp [he], by simp [hpe]⟩
    have hrest : rest.filter (fun e => e.1 != p) = rest := by
      apply List.filter_eq_self.mpr
      intro e he
      simpa using hfresh p (by simp) e he
    rw [unlinkPathsM_cons _ p ps' _ (unlink_ok _ p hhas)]
    simp only [List.filter_append, hrest]
    apply ih
    · rw [map_fst_filter_key]
      have hnd : (cur.map Prod.fst).Nodup := hperm.nodup_iff.mpr hnodup
      rw [filter_bne_eq_erase _ _ hnd]
      have hpe := hperm.erase p
      rwa [List.erase_cons_head] at hpe
    · exact (List.nodup_cons.mp hnodup).2
    · intro q hq e he
      exact hfresh q (by simp [hq]) e he

theorem rmdir_definitions_ok (fs : FS)
    (h1 : fs.hasDir "/definitions" = true)
    (h2 : ∀ e ∈ fs.files, pathInDir "/definitions" e.1 = false) :
    fs.rmdir "/definitions" =
      .ok ⟨fs.dirs.filter (fun x => x != "/definitions"), fs.files⟩ := by
  unfold FS.rmdir
  rw [if_neg (by simp [h1])]
  have hany : fs.files.any (fun e => pathInDir "/definitions" e.1) = false := by
    apply List.any_eq_false.mpr
    intro e he
    simp [h2 e he]
  rw [if_neg (by simp [hany])]

/-! ## Evaluating `addDefinitions` and `removeDefinitions` -/

theorem except_mapError_ok {ε ε' α : Type} (f : ε → ε') (a : α) :
    (Except.ok a : Except ε α).mapError f = .ok a := rfl

theorem except_mapError_error {ε ε' α : Type} (f : ε → ε') (e : ε) :
    (Except.error e : Except ε α).mapError f = .error (f e) := rfl

theorem except_bind_ok {ε α β : Type} (a : α) (k : α → Except ε β) :
    ((Except.ok a : Except ε α) >>= k) = k a := rfl

theorem except_bind_error {ε α β : Type} (e : ε) (k : α → Except ε β) :
    ((Except.error e : Except ε α) >>= k) = .error e := rfl

theorem except_bind_ok_elim {ε α β : Type} {x : Except ε α} {f : α → Except ε β}
    {b : β} (h : (x >>= f) = .ok b) : ∃ a, x = .ok a ∧ f a = .ok b := by
  cases x with
  | error e => rw [except_bind_error] at h; exact absurd h (by simp)
  | ok a => exact ⟨a, rfl, h⟩

theorem foldlM_unlink_map {α : Type} (f : α → String) :
    ∀ (xs : List α) (fs : FS),
      xs.foldlM (fun fs x => (FS.unlink fs (f x)).mapError WError.fsError) fs =
        (xs.map f).foldlM (fun fs p => (FS.unlink fs p).mapError WError.fsError) fs := by
  intro xs
  induction xs with
  | nil => intro fs; rfl
  | cons a t ih =>
    intro fs
    simp only [List.map_cons, List.foldlM_cons]
    cases h : FS.unlink fs (f a) with
    | error e => rfl
    | ok fs' => exact ih fs'

theorem add_folds_eq (d : CombinedDefinition) (fs0 : FS) :
    d.extruders.enum.foldl (fun fs ie => fs.writeFile (extruderPath ie.1) ie.2)
      ((definitions.foldl (fun fs x => fs.writeFile (primaryPath x.1) x.2)
          fs0).writeFile "/definitions/printer.def.json" d.printer) =
      (stagedEntries d).foldl (fun fs e => fs.writeFile e.1 e.2) fs0 := by
  unfold stagedEntries
  rw [List.foldl_append, List.foldl_append, List.foldl_map, List.foldl_map]
  rfl

theorem addDefinitions_eq (st : WorkerState) (d : CombinedDefinition)
    (h : st.engine = true) (hdir : st.fs.hasDir "/definitions" = false) :
    addDefinitions st d = .ok { st with
      fs := (stagedEntries d).foldl (fun fs e => fs.writeFile e.1 e.2)
              ⟨"/definitions" :: st.fs.dirs, st.fs.files⟩,
      extruderCount := some d.extruders.length } := by
  have hmk : st.fs.mkdir "/definitions" =
      .ok ⟨"/definitions" :: st.fs.dirs, st.fs.files⟩ := by
    unfold FS.mkdir
    rw [if_neg (by simp [hdir])]
  unfold addDefinitions
  simp only [h]
  rw [if_neg (by simp)]
  rw [hmk, except_mapError_ok, except_bind_ok]
  rw [add_folds_eq d ⟨"/definitions" :: st.fs.dirs, st.fs.files⟩]

theorem removeDefinitions_eq (st : WorkerState) (n : Nat)
    (he : st.engine = true) (hec : st.extruderCount = some n)
    (fsA fsB : FS)
    (hun : unlinkPathsM st.fs (stagedPaths n) = .ok fsA)
    (hrm : fsA.rmdir "/definitions" = .ok fsB) :
    removeDefinitions st = .ok { st with fs := fsB } := by
  unfold unlinkPathsM stagedPaths at hun
  rw [List.foldlM_append, List.foldlM_append] at hun
  obtain ⟨fs2, h12, h3⟩ := except_bind_ok_elim hun
  obtain ⟨fs1, hA, hP⟩ := except_bind_ok_elim h12
  simp only [List.foldlM_cons, List.foldlM_nil, bind_pure] at hP
  unfold removeDefinitions
  simp only [he, hec]
  rw [foldlM_unlink_map (fun x : String × String => primaryPath x.1) definitions st.fs,
    hA, except_bind_ok, hP, except_bind_ok,
    foldlM_unlink_map extruderPath (List.range n) fs2, h3, except_bind_ok,
    hrm, except_mapError_ok, except_bind_ok]

/-- The full staging/unstaging round trip on a worker whose filesystem
has no `/definitions` directory and no file below it. -/
theorem stage_unstage_spec (st : WorkerState) (d : CombinedDefinition)
    (h : st.engine = true)
    (hdir : st.fs.hasDir "/definitions" = false)
    (hfresh : ∀ e ∈ st.fs.files, pathInDir "/definitions" e.1 = false) :
    ∃ st₁ st₂,
      addDefinitions st d = .ok st₁
      ∧ st₁.fs.files = (stagedEntries d).reverse ++ st.fs.files
      ∧ st₁.fs.dirs = "/definitions" :: st.fs.dirs
      ∧ st₁.engine = true
      ∧ st₁.extruderCount = some d.extruders.length
      ∧ removeDefinitions st₁ = .ok st₂
      ∧ st₂.fs = st.fs
      ∧ st₂.engine = true
      ∧ st₂.extruderCount = some d.extruders.length := by
  have hfreshP : ∀ p ∈ stagedPaths d.extruders.length,
      ∀ e ∈ st.fs.files, e.1 ≠ p := by
    intro p hp e he hc
    have h1 := hfresh e he
    have h2 := stagedPaths_in_dir _ p hp
    rw [hc] at h1
    rw [h1] at h2
    exact absurd h2 (by simp)
  have hfreshF : ∀ p ∈ (stagedEntries d).map Prod.fst,
      FS.hasFile ⟨"/definitions" :: st.fs.dirs, st.fs.files⟩ p = false := by
    intro p hp
    rw [stagedEntries_fst] at hp
    unfold FS.hasFile
    apply List.any_eq_false.mpr
    intro e he
    simp only [beq_iff_eq]
    exact hfreshP p hp e he
  have hnodup : ((stagedEntries d).map Prod.fst).Nodup := by
    rw [stagedEntries_fst]
    exact stagedPaths_nodup _
  have hfold := foldl_writeFile_fresh (stagedEntries d)
    ⟨"/definitions" :: st.fs.dirs, st.fs.files⟩ hfreshF hnodup
  have hadd := addDefinitions_eq st d h hdir
  rw [hfold] at hadd
  set fs₁ : FS := ⟨"/definitions" :: st.fs.dirs,
    (stagedEntries d).reverse ++ st.fs.files⟩ with hfs₁
  refine ⟨{ st with fs := fs₁, extruderCount := some d.extruders.length },
    { st with fs := st.fs, extruderCount := some d.extruders.length }, hadd,
    rfl, rfl, h, rfl, ?_, rfl, h, rfl⟩
  have hun : unlinkPathsM fs₁ (stagedPaths d.extruders.length) =
      .ok ⟨"/definitions" :: st.fs.dirs, st.fs.files⟩ := by
    apply unlinkPathsM_restore
    · rw [List.map_reverse, stagedEntries_fst]
      exact List.reverse_perm _
    · exact stagedPaths_nodup _
    · exact fun p hp e he => hfreshP p hp e he
  have hdirsF : st.fs.dirs.filter (fun x => x != "/definitions") = st.fs.dirs := by
    apply List.filter_eq_self.mpr
    intro x hx
    have := List.any_eq_false.mp hdir x hx
    simpa using this
  have hrm : FS.rmdir ⟨"/definitions" :: st.fs.dirs, st.fs.files⟩ "/definitions" =
      .ok ⟨st.fs.dirs, st.fs.files⟩ := by
    rw [rmdir_definitions_ok ⟨"/definitions" :: st.fs.dirs, st.fs.files⟩
      (by simp [FS.hasDir]) hfresh]
    simp [List.filter_cons, hdirsF]
  have := removeDefinitions_eq
    { st with fs := fs₁, extruderCount := some d.extruders.length }
    d.extruders.length h rfl ⟨"/definitions" :: st.fs.dirs, st.fs.files⟩
    ⟨st.fs.dirs, st.fs.files⟩ hun hrm
  simpa using this

/-! ## C8 — stage/unstage round trip -/

/-- C8: on a worker with an engine handle and no staged definitions,
`addDefinitions` followed immediately by `removeDefinitions` succeeds;
staging creates exactly the primary definition files, the printer
definition file and one extruder file per extruder (the entries of
`stagedEntries`, whose paths are `stagedPaths`), unstaging removes
exactly those files (the filesystem is restored verbatim), and the
`/definitions` directory does not exist afterwards. -/
theorem c8_stage_unstage_roundtrip (st : WorkerState) (d : CombinedDefinition)
    (h : st.engine = true)
    (hdir : st.fs.hasDir "/definitions" = false)
    (hfresh : ∀ e ∈ st.fs.files, pathInDir "/definitions" e.1 = false) :
    ∃ st₁ st₂,
      addDefinitions st d = .ok st₁
      ∧ st₁.fs.files = (stagedEntries d).reverse ++ st.fs.files
      ∧ (stagedEntries d).map Prod.fst = stagedPaths d.extruders.length
      ∧ removeDefinitions st₁ = .ok st₂
      ∧ st₂.fs = st.fs
      ∧ st₂.fs.hasDir "/definitions" = false := by
  obtain ⟨st₁, st₂, hadd, hfiles, hdirs, he1, hec1, hrem, hfs, he2, hec2⟩ :=
    stage_unstage_spec st d h hdir hfresh
  exact ⟨st₁, st₂, hadd, hfiles, stagedEntries_fst d, hrem, hfs,
    by rw [hfs]; exact hdir⟩

/-- Witness for C8 with a two-extruder definition on an empty filesystem. -/
theorem c8_stage_unstage_roundtrip_witness :
    ∃ st₁ st₂,
      addDefinitions ⟨true, ⟨[], []⟩, none, false, false, false⟩
          ⟨"P", ["E0", "E1"]⟩ = .ok st₁
      ∧ removeDefinitions st₁ = .ok st₂
      ∧ st₂.fs = FS.mk [] [] := by
  obtain ⟨st₁, st₂, hadd, -, -, hrem, hfs, -⟩ :=
    c8_stage_unstage_roundtrip ⟨true, ⟨[], []⟩, none, false, false, false⟩
      ⟨"P", ["E0", "E1"]⟩ rfl rfl (by intro e he; simp at he)
  exact ⟨st₁, st₂, hadd, hrem, hfs⟩

/-! ## C9 — unstaging preserves the lifecycle state -/

/-- C9: `removeDefinitions` leaves the recorded extruder count and the
engine handle unchanged; consequently, after a successful stage/unstage
pair a second `removeDefinitions` call is not rejected with the
`NotInitialized` error — it passes the guard (the recorded extruder
count persists) and fails later with a filesystem error instead. -/
theorem c9_unstage_preserves_state (st : WorkerState) (d : CombinedDefinition)
    (h : st.engine = true)
    (hdir : st.fs.hasDir "/definitions" = false)
    (hfresh : ∀ e ∈ st.fs.files, pathInDir "/definitions" e.1 = false) :
    (∀ s s' : WorkerState, removeDefinitions s = .ok s' →
        s'.extruderCount = s.extruderCount ∧ s'.engine = s.engine)
    ∧ ∃ st₁ st₂, addDefinitions st d = .ok st₁
        ∧ removeDefinitions st₁ = .ok st₂
        ∧ st₂.extruderCount = some d.extruders.length
        ∧ st₂.engine = true
        ∧ removeDefinitions st₂ = .error (.fsError "ENOENT") := by
  constructor
  · intro s s' hok
    unfold removeDefinitions at hok
    cases hse : s.engine with
    | false =>
      simp only [hse] at hok
      exact absurd hok (by simp)
    | true =>
      cases hsec : s.extruderCount with
      | none =>
        simp only [hse, hsec] at hok
        exact absurd hok (by simp)
      | some n =>
        simp only [hse, hsec] at hok
        obtain ⟨fsa, h1, hok⟩ := except_bind_ok_elim hok
        obtain ⟨fsb, h2, hok⟩ := except_bind_ok_elim hok
        obtain ⟨fsc, h3, hok⟩ := except_bind_ok_elim hok
        obtain ⟨fsd, h4, hok⟩ := except_bind_ok_elim hok
        simp only [Except.ok.injEq] at hok
        rw [← hok]
        exact ⟨rfl, rfl⟩
  · obtain ⟨st₁, st₂, hadd, hf1, hd1, he1, hec1, hrem, hfs, he2, hec2⟩ :=
      stage_unstage_spec st d h hdir hfresh
    refine ⟨st₁, st₂, hadd, hrem, hec2, he2, ?_⟩
    have hnof : FS.hasFile st₂.fs (primaryPath "fdmprinter") = false := by
      rw [hfs]
      unfold FS.hasFile
      apply List.any_eq_false.mpr
      intro e he
      simp only [beq_iff_eq]
      intro hc
      have h1 := hfresh e he
      rw [hc] at h1
      have h2 := pathInDir_primaryPath "fdmprinter"
      rw [h1] at h2
      exact absurd h2 (by simp)
    have hu : FS.unlink st₂.fs (primaryPath "fdmprinter") = .error "ENOENT" := by
      unfold FS.unlink
      rw [if_neg (by simp [hnof])]
    unfold removeDefinitions
    simp only [he2, hec2]
    simp only [definitions, List.foldlM_cons, hu, except_mapError_error,
      except_bind_error]

/-- Witness for C9 on a concrete two-extruder round trip. -/
theorem c9_unstage_preserves_state_witness :
    ∃ st₁ st₂,
      addDefinitions ⟨true, ⟨[], []⟩, none, false, false, false⟩
          ⟨"P", ["E0", "E1"]⟩ = .ok st₁
      ∧ removeDefinitions st₁ = .ok st₂
      ∧ st₂.extruderCount = some 2
      ∧ removeDefinitions st₂ = .error (.fsError "ENOENT") := by
  obtain ⟨-, st₁, st₂, hadd, hrem, hec, -, herr⟩ :=
    c9_unstage_preserves_state ⟨true, ⟨[], []⟩, none, false, false, false⟩
      ⟨"P", ["E0", "E1"]⟩ rfl rfl (by intro e he; simp at he)
  exact ⟨st₁, st₂, hadd, hrem, hec, herr⟩

end CuraWasm
